import Mathlib

/-!
Verification of the MNIST spiking-neural-network notebook
(`src/EjemplosJuguete/Class_MNIST_LC.ipynb`).

The notebook's own logic is embedded shallowly: numeric tensors become
functions `Fin n → ℚ`, the time dimension becomes a `ℕ`-indexed family of
input slices, the three fully-connected layers become explicit
weight/bias records, and the two loops (training and test) become pure
folds together with an event trace capturing the order of the effectful
library calls.  Library primitives that live outside the repository
(the snnTorch `Leaky` neuron and the `spikegen` encoders) are modelled
from the spec, as marked on their doc comments.
-/

/-- `num_inputs = 28*28`, the input layer width (notebook cell 7). -/
def num_inputs : ℕ := 28 * 28

/-- `num_hidden = 64`, the hidden layer width (notebook cell 7). -/
def num_hidden : ℕ := 64

/-- `num_outputs = 10`, the output layer width (notebook cell 7). -/
def num_outputs : ℕ := 10

/-- `num_steps = 30`, the number of simulated time steps (notebook cell 7). -/
def num_steps : ℕ := 30

/-- `beta = 0.95`, the membrane decay constant (notebook cell 7). -/
def beta : ℚ := 95 / 100

/-- A length-`n` numeric vector (one row of a tensor). -/
def Vec (n : ℕ) : Type := Fin n → ℚ

/-- `nn.Linear`: affine map `x ↦ W x + b` (row `j` of the output is the
dot product of row `j` of the weight matrix with `x`, plus the bias). -/
def linear {m n : ℕ} (W : Fin m → Fin n → ℚ) (b : Fin m → ℚ) (x : Vec n) : Vec m :=
  fun j => (∑ i, W j i * x i) + b j

/-- Modelled from the spec: the firing threshold of the snnTorch `Leaky`
neuron (the library default, `threshold = 1.0`); the repository never
overrides it. -/
def leakyThreshold : ℚ := 1

/-- Modelled from the spec: one step of the snnTorch `snn.Leaky`
leaky integrate-and-fire neuron, which the spec describes as "each LIF
unit holding a decaying membrane-potential state (decay constant beta)".
The membrane decays by the factor `b`, integrates the input current,
emits a spike when it crosses the threshold, and resets by subtraction. -/
def leaky {n : ℕ} (b : ℚ) (cur mem : Vec n) : Vec n × Vec n :=
  let mem' : Vec n := fun i => b * mem i + cur i
  let spk : Vec n := fun i => if leakyThreshold < mem' i then 1 else 0
  (spk, fun i => mem' i - spk i * leakyThreshold)

/-- Modelled from the spec: `snn.Leaky.init_leaky`, which re-initializes
the membrane state at the start of a forward pass.  The state a previous
call could have left behind is taken as an argument and discarded, which
is what makes the reset a reset. -/
def init_leaky {n : ℕ} (carried : Vec n) : Vec n :=
  fun _ => 0

/-- The parameters of the network `Net`: the weights and biases of the
three `nn.Linear` layers `fc1`, `fc2`, `fc3` (notebook cell 9). -/
structure NetParams where
  W1 : Fin num_hidden → Fin num_inputs → ℚ
  b1 : Fin num_hidden → ℚ
  W2 : Fin 64 → Fin num_hidden → ℚ
  b2 : Fin 64 → ℚ
  W3 : Fin num_outputs → Fin 64 → ℚ
  b3 : Fin num_outputs → ℚ

/-- The membrane potentials of the three `Leaky` layers `lif1`, `lif2`,
`lif3`. -/
structure Mems where
  m1 : Vec num_hidden
  m2 : Vec 64
  m3 : Vec num_outputs

/-- The body of the `for step in range(num_steps)` loop in `Net.forward`,
run once per entry of `steps`: `cur1 = fc1(x[step])`,
`spk1, mem1 = lif1(cur1, mem1)`, likewise through `fc2/lif2` and
`fc3/lif3`, appending `spk3` and `mem3` to the two record lists.
The records are returned in step order, so the resulting lists are
exactly `torch.stack(spk3_rec, dim=0)` and `torch.stack(mem3_rec, dim=0)`. -/
def runSteps (p : NetParams) (x : ℕ → Vec num_inputs) :
    List ℕ → Mems → List (Vec num_outputs) × List (Vec num_outputs)
  | [], _ => ([], [])
  | step :: rest, m =>
    let cur1 := linear p.W1 p.b1 (x step)
    let r1 := leaky beta cur1 m.m1
    let cur2 := linear p.W2 p.b2 r1.1
    let r2 := leaky beta cur2 m.m2
    let cur3 := linear p.W3 p.b3 r2.1
    let r3 := leaky beta cur3 m.m3
    let tail := runSteps p x rest ⟨r1.2, r2.2, r3.2⟩
    (r3.1 :: tail.1, r3.2 :: tail.2)

/-- `Net.forward` (notebook cell 9): re-initialize the three membrane
states with `init_leaky`, run the time-step loop for
`range(num_steps)`, and return the stacked spike and membrane records.
`carried` is whatever membrane state earlier calls might have left on
the `Leaky` modules; `init_leaky` discards it. -/
def Net.forward (p : NetParams) (carried : Mems) (x : ℕ → Vec num_inputs) :
    List (Vec num_outputs) × List (Vec num_outputs) :=
  runSteps p x (List.range num_steps)
    ⟨init_leaky carried.m1, init_leaky carried.m2, init_leaky carried.m3⟩

/-! ## The module list of `Net.__init__` -/

/-- One module of the network, as constructed in `Net.__init__`: either a
fully-connected `nn.Linear(inp, out)` layer or a `snn.Leaky(beta=b)` LIF
stage. -/
inductive LayerSpec where
  | fc (inp out : ℕ)
  | lif (b : ℚ)
deriving DecidableEq

/-- Whether a module is an LIF stage. -/
def LayerSpec.isLif : LayerSpec → Bool
  | .lif _ => true
  | .fc _ _ => false

/-- Whether a module is a fully-connected layer. -/
def LayerSpec.isFc : LayerSpec → Bool
  | .lif _ => false
  | .fc _ _ => true

/-- The modules of `Net.__init__`, in construction order (notebook cell 9):
`fc1 = nn.Linear(num_inputs, num_hidden)`, `lif1 = snn.Leaky(beta=beta)`,
`fc2 = nn.Linear(num_hidden, 64)`, `lif2 = snn.Leaky(beta=beta)`,
`fc3 = nn.Linear(64, num_outputs)`, `lif3 = snn.Leaky(beta=beta)`. -/
def netModules : List LayerSpec :=
  [ .fc num_inputs num_hidden, .lif beta,
    .fc num_hidden 64, .lif beta,
    .fc 64 num_outputs, .lif beta ]

/-! ## Event traces of the training and test loops

The two loops interleave pure tensor computation with effectful library
calls (encoding, autograd, the optimizer).  The order and multiplicity
of those calls is captured as a list of events, one list entry per
statement of the loop body, in statement order. -/

/-- The two spike-encoding policies offered by `snntorch.spikegen` and
used by the notebook. -/
inductive Coding where
  | latency
  | rate
deriving DecidableEq

/-- One effectful call made by the notebook's loops. -/
inductive Ev where
  /-- a `spikegen.latency`/`spikegen.rate` call with its `num_steps` argument -/
  | encode (c : Coding) (steps : ℕ)
  /-- `optimizer.zero_grad()` -/
  | zeroGrad
  /-- `net(spike_data)` -/
  | forwardPass
  /-- `loss_val.backward()` -/
  | backwardPass
  /-- `optimizer.step()` -/
  | optStep
  /-- the accuracy-counter update of the test loop -/
  | countAcc
deriving DecidableEq

/-- `num_epochs = 1` (notebook cell 13). -/
def num_epochs : ℕ := 1

/-- Adam learning rate `lr = 5e-4` (notebook cell 11). -/
def adam_lr : ℚ := 5 / 10000

/-- Adam first moment decay `betas[0] = 0.9` (notebook cell 11). -/
def adam_beta1 : ℚ := 9 / 10

/-- Adam second moment decay `betas[1] = 0.999` (notebook cell 11). -/
def adam_beta2 : ℚ := 999 / 1000

/-- The effectful calls of one iteration of the training loop body
(notebook cell 13), in statement order: latency-encode the batch over
`num_steps` steps, `optimizer.zero_grad()`, the forward pass, the
accumulated loss's single `backward()`, and `optimizer.step()`. -/
def trainBatchEvents : List Ev :=
  [ .encode .latency num_steps, .zeroGrad, .forwardPass, .backwardPass, .optStep ]

/-- The effectful calls of one iteration of the test loop body
(notebook cell 15), in statement order: rate-encode the batch over
`num_steps` steps, the forward pass, and the accuracy-counter update.
No autograd or optimizer call appears: the loop runs under
`torch.no_grad()` after `net.eval()`. -/
def evalBatchEvents : List Ev :=
  [ .encode .rate num_steps, .forwardPass, .countAcc ]

/-- The events of one epoch over a training loader with `n` batches. -/
def epochEvents (n : ℕ) : List Ev :=
  (List.replicate n trainBatchEvents).flatten

/-- The events of the whole training phase: `num_epochs` epochs over a
loader with `n` batches. -/
def trainingEvents (n : ℕ) : List Ev :=
  (List.replicate num_epochs (epochEvents n)).flatten

/-- The events of the test phase over a loader with `n` batches. -/
def testEvents (n : ℕ) : List Ev :=
  (List.replicate n evalBatchEvents).flatten

/-- The whole notebook, as run top to bottom: the training phase
(cell 13) followed by the single test pass (cell 15). -/
def programEvents (nTrain nTest : ℕ) : List Ev :=
  trainingEvents nTrain ++ testEvents nTest

/-! ## Spike encoders (library primitives)

`spikegen.latency` and `spikegen.rate` belong to snnTorch, not to this
repository; only their characteristic monotonicity is modelled, from the
spec's own glosses. -/

/-- Modelled from the spec: the spike time assigned by `spikegen.latency`
to a pixel of intensity `x` is "inversely proportional to intensity". -/
def latencySpikeTime (x : ℚ) : ℚ := 1 / x

/-- Modelled from the spec: the per-step spike probability assigned by
`spikegen.rate` to a pixel of intensity `x` is "proportional to
intensity". -/
def rateSpikeProb (x : ℚ) : ℚ := x

/-! ## The training-loop loss accumulation -/

/-- `mem_rec[step]` for a whole batch: the row of the stacked membrane
record at time `step`, one output-layer membrane vector per example of
the batch (`torch.stack` along `dim=0` makes index `step` of the record
list the `step`-th slice). -/
def memRecAt (p : NetParams) (carried : Mems) (xs : List (ℕ → Vec num_inputs))
    (step : ℕ) : List (Vec num_outputs) :=
  xs.map fun ex => ((Net.forward p carried ex).2).getD step (fun _ => 0)

/-- The loss accumulation of the training loop (notebook cell 13):
`loss_val` starts at `torch.zeros((1))` and the loop
`for step in range(num_steps): loss_val += CE_loss(mem_rec[step], targets)`
adds the cross-entropy of the step's membrane slice against the labels.
`CE` is `nn.CrossEntropyLoss()`, a library primitive kept abstract. -/
def loss_val (CE : List (Vec num_outputs) → List ℕ → ℚ) (p : NetParams)
    (carried : Mems) (xs : List (ℕ → Vec num_inputs)) (targets : List ℕ) : ℚ :=
  (List.range num_steps).foldl
    (fun acc step => acc + CE (memRecAt p carried xs step) targets) 0

/-! ## The test loop -/

/-- `torch.max(dim=1)` index semantics: fold over the class indices
`0, 1, …, n-1`, keeping the current best index and replacing it only on
a strictly larger value, so the returned index is the first one
attaining the maximum. -/
def firstArgmax (f : ℕ → ℚ) (n : ℕ) : ℕ :=
  (List.range n).foldl (fun best i => if f best < f i then i else best) 0

/-- `outputs.sum(dim=0)` for one example: the spike counts of the output
classes, summed over the recorded time steps. -/
def sumSpikes (p : NetParams) (carried : Mems) (ex : ℕ → Vec num_inputs) :
    Fin num_outputs → ℚ :=
  fun cls => (((Net.forward p carried ex).1).map fun v => v cls).sum

/-- The summed spike count of class `i`, as a function of the plain
index `i : ℕ` (indices outside the `num_outputs` classes score `0` and
are never consulted by the arg-max, which only ranges over
`range num_outputs`). -/
def classScore (p : NetParams) (carried : Mems) (ex : ℕ → Vec num_inputs) (i : ℕ) : ℚ :=
  if h : i < num_outputs then sumSpikes p carried ex ⟨i, h⟩ else 0

/-- `_, pred = outputs.sum(dim=0).max(1)` for one example: the first
class index whose summed spike count is maximal. -/
def predEx (p : NetParams) (carried : Mems) (ex : ℕ → Vec num_inputs) : ℕ :=
  firstArgmax (classScore p carried ex) num_outputs

/-- The spec's description of the prediction, written independently of
the fold that implements it: among the class indices whose score is
maximal over all `n` classes, the first one. -/
def specFirstArgmax (f : ℕ → ℚ) (n : ℕ) : ℕ :=
  ((List.range n).filter fun i => (List.range n).all fun j => decide (f j ≤ f i)).headD 0

/-- One test batch: the rate-encoded spike slices of each example paired
with its label. -/
def EvalBatch : Type := List ((ℕ → Vec num_inputs) × ℕ)

/-- `(pred == targets).sum().item()`: how many examples of the batch are
predicted correctly. -/
def correctCount (p : NetParams) (carried : Mems) (b : EvalBatch) : ℕ :=
  b.countP fun ex => predEx p carried ex.1 == ex.2

/-- The running state of the test loop: the network parameters (read by
the forward passes, written by nothing) and the two counters. -/
structure TestState where
  params : NetParams
  correct : ℕ
  total : ℕ

/-- One iteration of the test loop body (notebook cell 15):
`correct += (pred == targets).sum().item()` and
`total += targets.size(0)`; the parameters are only read. -/
def testStep (carried : Mems) (s : TestState) (b : EvalBatch) : TestState :=
  ⟨s.params, s.correct + correctCount s.params carried b, s.total + b.length⟩

/-- The whole test loop over the batches of the test loader, starting
from `correct = 0`, `total = 0`. -/
def testRun (carried : Mems) (s : TestState) (bs : List EvalBatch) : TestState :=
  bs.foldl (testStep carried) s

/-- `100 * correct / total`, the accuracy the notebook reports. -/
def accuracyOf (s : TestState) : ℚ :=
  100 * (s.correct : ℚ) / (s.total : ℚ)

/-! ## Helper lemmas -/

theorem runSteps_length (p : NetParams) (x : ℕ → Vec num_inputs)
    (steps : List ℕ) : ∀ m : Mems,
    (runSteps p x steps m).1.length = steps.length ∧
    (runSteps p x steps m).2.length = steps.length := by
  induction steps with
  | nil => intro m; exact ⟨rfl, rfl⟩
  | cons s rest ih =>
    intro m
    simp only [runSteps, List.length_cons]
    exact ⟨by rw [(ih _).1], by rw [(ih _).2]⟩

theorem runSteps_congr (p : NetParams) (x x' : ℕ → Vec num_inputs)
    (steps : List ℕ) (hx : ∀ t ∈ steps, x t = x' t) : ∀ m : Mems,
    runSteps p x steps m = runSteps p x' steps m := by
  induction steps with
  | nil => intro m; rfl
  | cons s rest ih =>
    intro m
    have h1 : x s = x' s := hx s (List.mem_cons_self s rest)
    have ih' := ih fun t ht => hx t (List.mem_cons_of_mem s ht)
    simp only [runSteps, h1, ih']

theorem foldl_add_eq (f : ℕ → ℚ) (l : List ℕ) : ∀ a : ℚ,
    l.foldl (fun acc s => acc + f s) a = a + (l.map f).sum := by
  induction l with
  | nil => intro a; simp
  | cons s t ih => intro a; simp [ih, add_assoc]

theorem sum_map_range (f : ℕ → ℚ) (n : ℕ) :
    ((List.range n).map f).sum = ∑ s in Finset.range n, f s := by
  induction n with
  | zero => simp
  | succ n ih => rw [List.range_succ]; simp [ih, Finset.sum_range_succ]

theorem count_flatten_replicate (a : Ev) (l : List Ev) (n : ℕ) :
    ((List.replicate n l).flatten).count a = n * l.count a := by
  induction n with
  | zero => simp
  | succ n ih =>
    rw [List.replicate_succ]
    simp only [List.flatten_cons, List.count_append, ih]
    ring

theorem mem_flatten_replicate {α : Type} (a : α) (l : List α) (n : ℕ)
    (h : a ∈ (List.replicate n l).flatten) : a ∈ l := by
  rcases List.mem_flatten.1 h with ⟨l', hl', ha⟩
  rwa [List.eq_of_mem_replicate hl'] at ha

theorem testRun_params (c : Mems) (bs : List EvalBatch) : ∀ s : TestState,
    (testRun c s bs).params = s.params := by
  induction bs with
  | nil => intro s; rfl
  | cons b t ih => intro s; exact ih (testStep c s b)

theorem testRun_correct (c : Mems) (bs : List EvalBatch) : ∀ s : TestState,
    (testRun c s bs).correct =
      s.correct + (bs.map (correctCount s.params c)).sum := by
  induction bs with
  | nil => intro s; simp [testRun]
  | cons b t ih =>
    intro s
    have h := ih (testStep c s b)
    simp only [testStep] at h
    simp only [testRun, List.foldl_cons, testStep] at h ⊢
    rw [h]
    simp [add_assoc]

theorem testRun_total (c : Mems) (bs : List EvalBatch) : ∀ s : TestState,
    (testRun c s bs).total = s.total + (bs.map List.length).sum := by
  induction bs with
  | nil => intro s; simp [testRun]
  | cons b t ih =>
    intro s
    have h := ih (testStep c s b)
    simp only [testStep] at h
    simp only [testRun, List.foldl_cons, testStep] at h ⊢
    rw [h]
    simp [add_assoc]

theorem correctCount_le (p : NetParams) (c : Mems) (b : EvalBatch) :
    correctCount p c b ≤ b.length :=
  List.countP_le_length _

theorem firstArgmax_succ (f : ℕ → ℚ) (n : ℕ) :
    firstArgmax f (n + 1) =
      if f (firstArgmax f n) < f n then n else firstArgmax f n := by
  unfold firstArgmax
  rw [List.range_succ, List.foldl_append]
  rfl

theorem firstArgmax_spec (f : ℕ → ℚ) (n : ℕ) :
    (firstArgmax f n = 0 ∨ firstArgmax f n < n) ∧
    (∀ i, i < n → f i ≤ f (firstArgmax f n)) ∧
    (∀ j, j < firstArgmax f n → f j < f (firstArgmax f n)) := by
  induction n with
  | zero =>
    refine ⟨Or.inl rfl, fun i hi => absurd hi (Nat.not_lt_zero i), ?_⟩
    intro j hj
    exact absurd hj (Nat.not_lt_zero j)
  | succ n ih =>
    obtain ⟨hb, hmax, hfirst⟩ := ih
    rw [firstArgmax_succ]
    by_cases h : f (firstArgmax f n) < f n
    · rw [if_pos h]
      refine ⟨Or.inr (Nat.lt_succ_self n), ?_, ?_⟩
      · intro i hi
        rcases Nat.lt_succ_iff_lt_or_eq.1 hi with hi' | rfl
        · exact le_of_lt (lt_of_le_of_lt (hmax i hi') h)
        · exact le_refl _
      · intro j hj
        exact lt_of_le_of_lt (hmax j hj) h
    · rw [if_neg h]
      refine ⟨?_, ?_, hfirst⟩
      · rcases hb with h0 | hlt
        · exact Or.inl h0
        · exact Or.inr (Nat.lt_succ_of_lt hlt)
      · intro i hi
        rcases Nat.lt_succ_iff_lt_or_eq.1 hi with hi' | rfl
        · exact hmax i hi'
        · exact not_lt.1 h

theorem firstArgmax_lt (f : ℕ → ℚ) (n : ℕ) (h : 0 < n) :
    firstArgmax f n < n := by
  rcases (firstArgmax_spec f n).1 with h0 | hlt
  · rw [h0]; exact h
  · exact hlt

theorem headD_filter_eq_of (q : ℕ → Bool) (r : ℕ) (l : List ℕ)
    (hsort : l.Sorted (· < ·)) (hmem : r ∈ l) (hq : q r = true)
    (hmin : ∀ i ∈ l, q i = true → r ≤ i) : (l.filter q).headD 0 = r := by
  induction l with
  | nil => exact absurd hmem (List.not_mem_nil r)
  | cons a t ih =>
    by_cases ha : q a = true
    · rw [List.filter_cons_of_pos ha]
      rcases List.mem_cons.1 hmem with rfl | hrt
      · rfl
      · have h1 : a < r := (List.sorted_cons.1 hsort).1 r hrt
        have h2 : r ≤ a := hmin a (List.mem_cons_self a t) ha
        omega
    · have hrt : r ∈ t := by
        rcases List.mem_cons.1 hmem with rfl | hrt
        · exact absurd hq ha
        · exact hrt
      rw [List.filter_cons_of_neg (by simpa using ha)]
      exact ih (List.sorted_cons.1 hsort).2 hrt
        fun i hi hqi => hmin i (List.mem_cons_of_mem a hi) hqi

theorem firstArgmax_eq_spec (f : ℕ → ℚ) (n : ℕ) :
    firstArgmax f n = specFirstArgmax f n := by
  rcases Nat.eq_zero_or_pos n with rfl | hn
  · rfl
  · symm
    apply headD_filter_eq_of _ _ _ (List.sorted_lt_range n)
    · exact List.mem_range.2 (firstArgmax_lt f n hn)
    · refine List.all_eq_true.2 ?_
      intro j hj
      exact decide_eq_true ((firstArgmax_spec f n).2.1 j (List.mem_range.1 hj))
    · intro i hi hq
      by_contra hlt
      push_neg at hlt
      have h1 : f i < f (firstArgmax f n) := (firstArgmax_spec f n).2.2 i hlt
      have h2 : f (firstArgmax f n) ≤ f i :=
        of_decide_eq_true (List.all_eq_true.1 hq _
          (List.mem_range.2 (firstArgmax_lt f n hn)))
      exact absurd h1 (not_lt.2 h2)

/-! ## Concrete instances (used by the witnesses) -/

/-- All-zero network parameters. -/
def zeroParams : NetParams :=
  ⟨fun _ _ => 0, fun _ => 0, fun _ _ => 0, fun _ => 0, fun _ _ => 0, fun _ => 0⟩

/-- All-zero membrane state. -/
def zeroMems : Mems :=
  ⟨fun _ => 0, fun _ => 0, fun _ => 0⟩

/-- The all-zeros input stream. -/
def zeroInput : ℕ → Vec num_inputs := fun _ _ => 0

/-- An input stream equal to `zeroInput` on the first `num_steps` slices
and different from it beyond them. -/
def tailInput : ℕ → Vec num_inputs :=
  fun t => if t < num_steps then (fun _ => 0) else fun _ => 1

/-- A test loader with a single one-example batch. -/
def oneBatch : List EvalBatch := [[(zeroInput, 0)]]

/-! ## The claims -/

/-- C1 (counterexample): the claim reads the spec's chain
"input layer (784) → LIF → hidden (64) → LIF → hidden (64) → LIF →
output (10) → LIF" as an LIF activation after every one of the four
listed layers, i.e. four LIF stages.  The network built by
`Net.__init__` contains exactly three LIF stages, not four: no LIF acts
on the 784-unit input itself. -/
theorem C1_topology_counterexample :
    netModules.countP LayerSpec.isLif = 3 ∧
    ¬ netModules.countP LayerSpec.isLif = 4 := by
  decide

/-- C1 (amended): the network is a fixed feed-forward chain of three
fully-connected layers, 784 → 64, 64 → 64 and 64 → 10, each followed by
exactly one LIF stage with decay constant `beta` — three LIF stages in
total, matching the spec's "three-layer fully-connected network with
LIF activations", and no LIF stage acting on the raw input. -/
theorem C1_topology :
    netModules =
      [ LayerSpec.fc 784 64, LayerSpec.lif beta,
        LayerSpec.fc 64 64, LayerSpec.lif beta,
        LayerSpec.fc 64 10, LayerSpec.lif beta ]
    ∧ netModules.countP LayerSpec.isLif = 3
    ∧ netModules.countP LayerSpec.isFc = 3 := by
  refine ⟨?_, by decide, by decide⟩
  rfl

/-- C2: for every training batch, the accumulated loss is exactly the
sum over all `num_steps` time steps of the cross-entropy between the
recorded membrane potential `mem_rec[step]` and the true labels, and
`backward()` appears exactly once in the per-batch event trace — hence
once per batch across an epoch with any number of batches. -/
theorem C2_loss_accumulation (CE : List (Vec num_outputs) → List ℕ → ℚ)
    (p : NetParams) (c : Mems) (xs : List (ℕ → Vec num_inputs))
    (targets : List ℕ) :
    loss_val CE p c xs targets =
      ∑ step in Finset.range num_steps, CE (memRecAt p c xs step) targets
    ∧ trainBatchEvents.count Ev.backwardPass = 1
    ∧ ∀ n : ℕ, (epochEvents n).count Ev.backwardPass = n := by
  refine ⟨?_, by decide, ?_⟩
  · unfold loss_val
    rw [foldl_add_eq fun step => CE (memRecAt p c xs step) targets, zero_add,
      sum_map_range]
  · intro n
    have h : trainBatchEvents.count Ev.backwardPass = 1 := by decide
    unfold epochEvents
    rw [count_flatten_replicate, h, Nat.mul_one]

/-- C3: the prediction for every test example is the arg-max (first
maximal index, as `torch.max` returns) over the 10 classes of the
per-step spike outputs summed across time, and at the end of the test
loop `correct` counts exactly the examples whose prediction equals
their label, `total` counts all examples processed, and the reported
accuracy is `100 * correct / total`. -/
theorem C3_prediction_and_accuracy (p : NetParams) (c : Mems)
    (ex : ℕ → Vec num_inputs) (bs : List EvalBatch) :
    predEx p c ex = specFirstArgmax (classScore p c ex) num_outputs
    ∧ (testRun c ⟨p, 0, 0⟩ bs).correct =
        bs.flatten.countP (fun e => predEx p c e.1 == e.2)
    ∧ (testRun c ⟨p, 0, 0⟩ bs).total = bs.flatten.length
    ∧ accuracyOf (testRun c ⟨p, 0, 0⟩ bs) =
        100 * ((testRun c ⟨p, 0, 0⟩ bs).correct : ℚ) /
          ((testRun c ⟨p, 0, 0⟩ bs).total : ℚ) := by
  refine ⟨firstArgmax_eq_spec _ _, ?_, ?_, rfl⟩
  · rw [testRun_correct, List.countP_flatten, zero_add]
    rfl
  · rw [testRun_total, List.length_flatten, zero_add]

/-- C4: every spike-encoding event of the training phase uses latency
coding over `num_steps` steps and every one of the test phase uses rate
coding over `num_steps` steps; the modelled latency spike time is
antitone in the intensity (inversely proportional) and the modelled
rate spike probability is monotone in it (proportional). -/
theorem C4_encoding_policies (nTr nTe : ℕ) :
    (∀ c s, Ev.encode c s ∈ trainingEvents nTr →
      c = Coding.latency ∧ s = num_steps)
    ∧ (∀ c s, Ev.encode c s ∈ testEvents nTe →
      c = Coding.rate ∧ s = num_steps)
    ∧ (∀ x y : ℚ, 0 < x → x ≤ y → latencySpikeTime y ≤ latencySpikeTime x)
    ∧ (∀ x y : ℚ, x ≤ y → rateSpikeProb x ≤ rateSpikeProb y) := by
  refine ⟨?_, ?_, ?_, fun x y h => h⟩
  · intro c s hmem
    have h2 := mem_flatten_replicate _ _ _ (mem_flatten_replicate _ _ _ hmem)
    simpa [trainBatchEvents] using h2
  · intro c s hmem
    have h2 := mem_flatten_replicate _ _ _ hmem
    simpa [evalBatchEvents] using h2
  · intro x y hx hxy
    exact one_div_le_one_div_of_le hx hxy

/-- Witness for C4 at concrete inputs. -/
theorem C4_encoding_policies_witness :
    (Ev.encode Coding.latency num_steps ∈ trainingEvents 1)
    ∧ (Coding.latency = Coding.latency ∧ num_steps = num_steps)
    ∧ (Ev.encode Coding.rate num_steps ∈ testEvents 1)
    ∧ (Coding.rate = Coding.rate ∧ num_steps = num_steps)
    ∧ ((0 : ℚ) < 1 ∧ (1 : ℚ) ≤ 2 ∧ latencySpikeTime 2 ≤ latencySpikeTime 1)
    ∧ ((1 : ℚ) ≤ 2 ∧ rateSpikeProb 1 ≤ rateSpikeProb 2) := by
  refine ⟨by decide, (C4_encoding_policies 1 1).1 _ _ (by decide),
    by decide, (C4_encoding_policies 1 1).2.1 _ _ (by decide),
    ⟨by norm_num, by norm_num,
      (C4_encoding_policies 1 1).2.2.1 1 2 (by norm_num) (by norm_num)⟩,
    ⟨by norm_num, (C4_encoding_policies 1 1).2.2.2 1 2 (by norm_num)⟩⟩

/-- C5: the forward pass is unrolled for `num_steps` time steps whose
value is 30, and both returned records are stacked along dimension 0
with first dimension equal to `num_steps`. -/
theorem C5_time_steps (p : NetParams) (c : Mems) (x : ℕ → Vec num_inputs) :
    num_steps = 30
    ∧ (Net.forward p c x).1.length = num_steps
    ∧ (Net.forward p c x).2.length = num_steps := by
  have h := runSteps_length p x (List.range num_steps)
    ⟨init_leaky c.m1, init_leaky c.m2, init_leaky c.m3⟩
  refine ⟨rfl, ?_, ?_⟩
  · unfold Net.forward
    rw [h.1, List.length_range]
  · unfold Net.forward
    rw [h.2, List.length_range]

/-- C6: every LIF unit holds a decaying membrane state with decay
constant `beta = 0.95` — before the threshold reset, the new membrane
is `beta` times the old one plus the input current — and the state is
re-initialized via `init_leaky` at the start of every forward pass, so
the result of `Net.forward` is the same whatever membrane state an
earlier call left behind. -/
theorem C6_membrane_state :
    beta = 95 / 100
    ∧ (∀ (n : ℕ) (b : ℚ) (cur mem : Vec n) (i : Fin n),
        (leaky b cur mem).2 i + (leaky b cur mem).1 i * leakyThreshold =
          b * mem i + cur i)
    ∧ (∀ (p : NetParams) (c c' : Mems) (x : ℕ → Vec num_inputs),
        Net.forward p c x = Net.forward p c' x) := by
  refine ⟨rfl, ?_, fun p c c' x => rfl⟩
  intro n b cur mem i
  simp only [leaky]
  ring

/-- C7: training is exactly `num_epochs = 1` epoch of Adam with
learning rate `5e-4` and betas `(0.9, 0.999)`, with exactly one
optimizer step per training batch and none during testing, after which
the program runs exactly one inference pass over the test set, with one
accuracy-counter update per test batch. -/
theorem C7_training_schedule (nTr nTe : ℕ) :
    num_epochs = 1
    ∧ adam_lr = 5 / 10000 ∧ adam_beta1 = 9 / 10 ∧ adam_beta2 = 999 / 1000
    ∧ trainBatchEvents.count Ev.optStep = 1
    ∧ (epochEvents nTr).count Ev.optStep = nTr
    ∧ (testEvents nTe).count Ev.optStep = 0
    ∧ programEvents nTr nTe = epochEvents nTr ++ testEvents nTe
    ∧ (programEvents nTr nTe).count Ev.countAcc = nTe := by
  have h1 : trainBatchEvents.count Ev.optStep = 1 := by decide
  refine ⟨rfl, rfl, rfl, rfl, h1, ?_, ?_, ?_, ?_⟩
  · unfold epochEvents
    rw [count_flatten_replicate, h1, Nat.mul_one]
  · have h0 : evalBatchEvents.count Ev.optStep = 0 := by decide
    unfold testEvents
    rw [count_flatten_replicate, h0, Nat.mul_zero]
  · unfold programEvents trainingEvents num_epochs
    simp
  · have ht : trainBatchEvents.count Ev.countAcc = 0 := by decide
    have he : evalBatchEvents.count Ev.countAcc = 1 := by decide
    unfold programEvents trainingEvents testEvents epochEvents
    rw [List.count_append, count_flatten_replicate, count_flatten_replicate,
      count_flatten_replicate, ht, he]
    simp

/-- C8: `Net.forward` reads only the first `num_steps` slices of its
input: two inputs that agree on slices `0 … num_steps - 1` produce
identical spike and membrane records, so later slices never influence
the output. -/
theorem C8_input_slices (p : NetParams) (c : Mems)
    (x x' : ℕ → Vec num_inputs) (h : ∀ t, t < num_steps → x t = x' t) :
    Net.forward p c x = Net.forward p c x' := by
  unfold Net.forward
  exact runSteps_congr p x x' (List.range num_steps)
    (fun t ht => h t (List.mem_range.1 ht)) _

/-- Witness for C8 at concrete inputs: the all-zeros stream and a
stream differing only from slice `num_steps` on. -/
theorem C8_input_slices_witness :
    (∀ t, t < num_steps → zeroInput t = tailInput t)
    ∧ Net.forward zeroParams zeroMems zeroInput =
        Net.forward zeroParams zeroMems tailInput := by
  have h : ∀ t, t < num_steps → zeroInput t = tailInput t := by
    intro t ht
    unfold zeroInput tailInput
    rw [if_pos ht]
  exact ⟨h, C8_input_slices zeroParams zeroMems zeroInput tailInput h⟩

/-- C9: the test loop never writes the network parameters — after the
whole pass all weights and biases of `fc1`, `fc2` and `fc3` equal their
initial values — and its event trace contains no `backward()` and no
optimizer step, for any number of test batches. -/
theorem C9_eval_frame (c : Mems) (s : TestState) (bs : List EvalBatch) :
    (testRun c s bs).params = s.params
    ∧ evalBatchEvents.count Ev.backwardPass = 0
    ∧ evalBatchEvents.count Ev.optStep = 0
    ∧ (∀ n, (testEvents n).count Ev.backwardPass = 0)
    ∧ (∀ n, (testEvents n).count Ev.optStep = 0) := by
  refine ⟨testRun_params c bs s, by decide, by decide, ?_, ?_⟩
  · intro n
    have h : evalBatchEvents.count Ev.backwardPass = 0 := by decide
    unfold testEvents
    rw [count_flatten_replicate, h, Nat.mul_zero]
  · intro n
    have h : evalBatchEvents.count Ev.optStep = 0 := by decide
    unfold testEvents
    rw [count_flatten_replicate, h, Nat.mul_zero]

/-- C10: starting from `correct = 0, total = 0`, after any list of test
batches (hence throughout the loop, applying the statement to each
prefix of the loader) `correct ≤ total` and `total` is the sum of the
processed batch sizes; when `total > 0` the reported accuracy
`100 * correct / total` lies in `[0, 100]`. -/
theorem C10_counters (p : NetParams) (c : Mems) (bs : List EvalBatch) :
    (testRun c ⟨p, 0, 0⟩ bs).correct ≤ (testRun c ⟨p, 0, 0⟩ bs).total
    ∧ (testRun c ⟨p, 0, 0⟩ bs).total = (bs.map List.length).sum
    ∧ (0 < (testRun c ⟨p, 0, 0⟩ bs).total →
        0 ≤ accuracyOf (testRun c ⟨p, 0, 0⟩ bs)
        ∧ accuracyOf (testRun c ⟨p, 0, 0⟩ bs) ≤ 100) := by
  have hc : (testRun c ⟨p, 0, 0⟩ bs).correct =
      (bs.map (correctCount p c)).sum :=
    (testRun_correct c bs ⟨p, 0, 0⟩).trans (zero_add _)
  have ht : (testRun c ⟨p, 0, 0⟩ bs).total = (bs.map List.length).sum :=
    (testRun_total c bs ⟨p, 0, 0⟩).trans (zero_add _)
  have hle : (testRun c ⟨p, 0, 0⟩ bs).correct ≤ (testRun c ⟨p, 0, 0⟩ bs).total := by
    rw [hc, ht]
    exact List.sum_le_sum fun b _ => correctCount_le p c b
  refine ⟨hle, ht, ?_⟩
  intro hpos
  have ht0 : (0 : ℚ) < ((testRun c ⟨p, 0, 0⟩ bs).total : ℚ) := by
    exact_mod_cast hpos
  have hle' : ((testRun c ⟨p, 0, 0⟩ bs).correct : ℚ) ≤
      ((testRun c ⟨p, 0, 0⟩ bs).total : ℚ) := by exact_mod_cast hle
  unfold accuracyOf
  constructor
  · positivity
  · rw [div_le_iff₀ ht0]
    nlinarith

/-- Witness for C10 at a concrete one-example test loader. -/
theorem C10_counters_witness :
    0 < (testRun zeroMems ⟨zeroParams, 0, 0⟩ oneBatch).total
    ∧ 0 ≤ accuracyOf (testRun zeroMems ⟨zeroParams, 0, 0⟩ oneBatch)
    ∧ accuracyOf (testRun zeroMems ⟨zeroParams, 0, 0⟩ oneBatch) ≤ 100 := by
  have hpos : 0 < (testRun zeroMems ⟨zeroParams, 0, 0⟩ oneBatch).total := by
    rw [(testRun_total zeroMems oneBatch ⟨zeroParams, 0, 0⟩).trans (zero_add _)]
    decide
  exact ⟨hpos, ((C10_counters zeroParams zeroMems oneBatch).2.2 hpos).1,
    ((C10_counters zeroParams zeroMems oneBatch).2.2 hpos).2⟩
